import Mathlib

/-!
Verification of the ARC01 incremental-sync script (`update_sqlite.py`).

Shallow embedding conventions:
* Timestamps in the sync-engine model are minutes (as `Int`) on a fixed
  UTC+7 wall clock; `fmt_min` formats datetimes at minute granularity, and
  all window arithmetic in the script is in whole minutes, so the minute
  timeline is the faithful granularity of the engine model.
* The `Raw_State` SQLite table (PRIMARY KEY `(timestamp, measurementLabel)`)
  is a list of rows scanned in order; the schema's key uniqueness is the
  `uniqueKeys` invariant.
* `float` sample values are modelled as `Int`: the script only stores and
  overwrites them, never computes with them.
* Library calls (`requests`, `json`, `strptime`) are modelled by oracles or
  by small definitions capturing exactly the behaviour the script relies on.
-/

/-- A row of the `Raw_State` table: `(timestamp, measurementLabel, state)`. -/
structure RawRow where
  timestamp : String
  measurementLabel : String
  state : Int
deriving DecidableEq, Repr

/-- The SQLite primary key of a `Raw_State` row. -/
def keyOf (r : RawRow) : String × String := (r.timestamp, r.measurementLabel)

/-- Row update applied by `ON CONFLICT(timestamp,measurementLabel) DO UPDATE
SET state=excluded.state` to rows matching the conflicting key. -/
def updFn (r x : RawRow) : RawRow :=
  if keyOf x = keyOf r then { x with state := r.state } else x

/-- First row matching a key, as SQLite resolves a keyed SELECT/UPDATE. -/
def lookup : List RawRow → String × String → Option Int
  | [], _ => none
  | r :: rest, k => if keyOf r = k then some r.state else lookup rest k

/-- One `INSERT ... ON CONFLICT(timestamp,measurementLabel) DO UPDATE SET
state=excluded.state` statement: update in place on conflict, else append. -/
def upsertRow (tbl : List RawRow) (r : RawRow) : List RawRow :=
  if keyOf r ∈ tbl.map keyOf then tbl.map (updFn r) else tbl ++ [r]

/-- `upsert_raw`: `executemany` of the upsert statement over a batch
(`src/update_sqlite.py`, lines 142-148). -/
def upsert_raw (tbl : List RawRow) (rows : List RawRow) : List RawRow :=
  rows.foldl upsertRow tbl

/-- The `Raw_State` schema invariant: the primary key is unique. -/
def uniqueKeys (tbl : List RawRow) : Prop := (tbl.map keyOf).Nodup

/-- Value of the last batch row carrying a given key, if any. -/
def lastVal (rows : List RawRow) (k : String × String) : Option Int :=
  lookup rows.reverse k

theorem keyOf_updFn (r x : RawRow) : keyOf (updFn r x) = keyOf x := by
  unfold updFn
  split <;> rfl

theorem map_keyOf_map_updFn (tbl : List RawRow) (r : RawRow) :
    (tbl.map (updFn r)).map keyOf = tbl.map keyOf := by
  rw [List.map_map]
  exact List.map_congr_left fun x _ => keyOf_updFn r x

theorem lookup_append (a b : List RawRow) (k : String × String) :
    lookup (a ++ b) k = (lookup a k).or (lookup b k) := by
  induction a with
  | nil => simp [lookup]
  | cons x rest ih =>
    simp only [List.cons_append, lookup]
    split <;> simp [ih]

theorem lookup_eq_none_iff (tbl : List RawRow) (k : String × String) :
    lookup tbl k = none ↔ k ∉ tbl.map keyOf := by
  induction tbl with
  | nil => simp [lookup]
  | cons x rest ih =>
    simp only [lookup, List.map_cons, List.mem_cons]
    split
    next h => simp [h]
    next h =>
      simp only [ih]
      constructor
      · rintro hk (hx | hx)
        · exact h hx.symm
        · exact hk hx
      · intro hk hx
        exact hk (Or.inr hx)


theorem lookup_isSome_iff (tbl : List RawRow) (k : String × String) :
    (lookup tbl k).isSome ↔ k ∈ tbl.map keyOf := by
  rw [← Decidable.not_not (p := k ∈ tbl.map keyOf), ← lookup_eq_none_iff]
  cases lookup tbl k <;> simp

theorem lookup_map_updFn (tbl : List RawRow) (r : RawRow) (k : String × String) :
    lookup (tbl.map (updFn r)) k =
      if k = keyOf r then (lookup tbl k).map fun _ => r.state
      else lookup tbl k := by
  induction tbl with
  | nil => simp [lookup]
  | cons x rest ih =>
    simp only [List.map_cons, lookup, keyOf_updFn]
    by_cases hx : keyOf x = k
    · simp only [if_pos hx]
      by_cases hk : k = keyOf r
      · have hxr : keyOf x = keyOf r := hx.trans hk
        simp [if_pos hk, updFn, hxr]
      · have hxr : ¬ keyOf x = keyOf r := fun h => hk (hx ▸ h)
        simp [if_neg hk, updFn, hxr]
    · simp [if_neg hx, ih]

theorem lookup_upsertRow (tbl : List RawRow) (r : RawRow) (k : String × String) :
    lookup (upsertRow tbl r) k =
      if k = keyOf r then some r.state else lookup tbl k := by
  unfold upsertRow
  split
  next hmem =>
    rw [lookup_map_updFn]
    by_cases hk : k = keyOf r
    · obtain ⟨v, hv⟩ :=
        Option.isSome_iff_exists.mp
          ((lookup_isSome_iff tbl k).mpr (by rw [hk]; exact hmem))
      rw [if_pos hk, if_pos hk, hv]
      rfl
    · rw [if_neg hk, if_neg hk]
  next hmem =>
    rw [lookup_append]
    by_cases hk : k = keyOf r
    · have h0 : lookup tbl k = none :=
        (lookup_eq_none_iff tbl k).mpr (by rw [hk]; exact hmem)
      rw [if_pos hk, h0, Option.none_or]
      simp [lookup, hk]
    · have h1 : ¬ keyOf r = k := fun h => hk h.symm
      rw [if_neg hk]
      simp [lookup, h1]

theorem lastVal_cons (r : RawRow) (rs : List RawRow) (k : String × String) :
    lastVal (r :: rs) k =
      (lastVal rs k).or (if keyOf r = k then some r.state else none) := by
  unfold lastVal
  rw [List.reverse_cons, lookup_append]
  simp [lookup]

theorem some_or_eq {α : Type} (a : α) (o : Option α) : (some a).or o = some a := rfl

theorem lookup_upsert_raw (tbl rows : List RawRow) (k : String × String) :
    lookup (upsert_raw tbl rows) k = (lastVal rows k).or (lookup tbl k) := by
  induction rows generalizing tbl with
  | nil => simp [upsert_raw, lastVal, lookup]
  | cons r rs ih =>
    show lookup (upsert_raw (upsertRow tbl r) rs) k = _
    rw [ih, lookup_upsertRow, lastVal_cons, Option.or_assoc]
    congr 1
    by_cases hk : k = keyOf r
    · rw [if_pos (show keyOf r = k from hk.symm), if_pos hk, some_or_eq]
    · have h1 : ¬ (keyOf r = k) := fun h => hk h.symm
      rw [if_neg h1, if_neg hk, Option.none_or]

theorem mem_keys_upsertRow (tbl : List RawRow) (r : RawRow) (k : String × String) :
    k ∈ (upsertRow tbl r).map keyOf ↔ k ∈ tbl.map keyOf ∨ k = keyOf r := by
  unfold upsertRow
  split
  next hmem =>
    rw [map_keyOf_map_updFn]
    constructor
    · exact Or.inl
    · rintro (h | h)
      · exact h
      · exact h ▸ hmem
  next hmem => simp [List.map_append]

theorem mem_keys_upsert_raw (tbl rows : List RawRow) (k : String × String) :
    k ∈ (upsert_raw tbl rows).map keyOf ↔
      k ∈ tbl.map keyOf ∨ k ∈ rows.map keyOf := by
  induction rows generalizing tbl with
  | nil => simp [upsert_raw]
  | cons r rs ih =>
    show k ∈ (upsert_raw (upsertRow tbl r) rs).map keyOf ↔ _
    rw [ih, mem_keys_upsertRow]
    simp only [List.map_cons, List.mem_cons]
    tauto

theorem uniqueKeys_upsertRow {tbl : List RawRow} (r : RawRow)
    (h : uniqueKeys tbl) : uniqueKeys (upsertRow tbl r) := by
  unfold upsertRow uniqueKeys
  split
  next hmem =>
    rw [map_keyOf_map_updFn]
    exact h
  next hmem =>
    rw [List.map_append]
    refine List.Nodup.append h (List.nodup_singleton _) ?_
    intro a ha hb
    simp only [List.map_cons, List.map_nil, List.mem_singleton] at hb
    exact hmem (hb ▸ ha)

theorem uniqueKeys_upsert_raw {tbl : List RawRow} (rows : List RawRow)
    (h : uniqueKeys tbl) : uniqueKeys (upsert_raw tbl rows) := by
  induction rows generalizing tbl with
  | nil => exact h
  | cons r rs ih => exact ih (uniqueKeys_upsertRow r h)

/-- Replaying all the per-row updates of a batch on a single row. -/
def applyAll (rs : List RawRow) (x : RawRow) : RawRow :=
  rs.foldl (fun x r => updFn r x) x

theorem keyOf_applyAll (rs : List RawRow) (x : RawRow) :
    keyOf (applyAll rs x) = keyOf x := by
  induction rs generalizing x with
  | nil => rfl
  | cons r rs ih =>
    show keyOf (applyAll rs (updFn r x)) = keyOf x
    rw [ih, keyOf_updFn]

theorem upsert_raw_eq_map (tbl rs : List RawRow)
    (h : ∀ r ∈ rs, keyOf r ∈ tbl.map keyOf) :
    upsert_raw tbl rs = tbl.map (applyAll rs) := by
  induction rs generalizing tbl with
  | nil =>
    show tbl = tbl.map (applyAll [])
    rw [show tbl.map (applyAll []) = tbl.map id from
      List.map_congr_left fun x _ => rfl, List.map_id]
  | cons r rs ih =>
    show upsert_raw (upsertRow tbl r) rs = _
    have hr : keyOf r ∈ tbl.map keyOf := h r (List.mem_cons_self r rs)
    have hrow : upsertRow tbl r = tbl.map (updFn r) := by
      unfold upsertRow
      exact if_pos hr
    rw [hrow, ih]
    · rw [List.map_map]
      rfl
    · intro r' hr'
      rw [map_keyOf_map_updFn]
      exact h r' (List.mem_cons_of_mem r hr')

theorem applyAll_eq (rs : List RawRow) (x : RawRow) :
    applyAll rs x = { x with state := (lastVal rs (keyOf x)).getD x.state } := by
  induction rs generalizing x with
  | nil => simp [applyAll, lastVal, lookup]
  | cons r rs ih =>
    show applyAll rs (updFn r x) = _
    rw [ih, lastVal_cons, keyOf_updFn]
    cases hl : lastVal rs (keyOf x) with
    | some v =>
      simp only [some_or_eq, Option.getD_some]
      unfold updFn
      split <;> rfl
    | none =>
      unfold updFn
      by_cases hx : keyOf x = keyOf r
      · rw [if_pos hx, if_pos hx.symm]
        rfl
      · rw [if_neg hx, if_neg (fun h => hx h.symm)]
        rfl

theorem lookup_self {tbl : List RawRow} (h : uniqueKeys tbl) {x : RawRow}
    (hx : x ∈ tbl) : lookup tbl (keyOf x) = some x.state := by
  induction tbl with
  | nil => cases hx
  | cons y rest ih =>
    have h' : keyOf y ∉ rest.map keyOf ∧ uniqueKeys rest := by
      unfold uniqueKeys at h
      rw [List.map_cons, List.nodup_cons] at h
      exact h
    rcases List.mem_cons.mp hx with rfl | hx'
    · simp [lookup]
    · show lookup (y :: rest) (keyOf x) = some x.state
      have hne : ¬ keyOf y = keyOf x := by
        intro he
        exact h'.1 (he ▸ List.mem_map_of_mem keyOf hx')
      simp only [lookup, if_neg hne]
      exact ih h'.2 hx'

theorem uniqueKeys_foldl_upsert {tbl : List RawRow}
    (batches : List (List RawRow)) (h : uniqueKeys tbl) :
    uniqueKeys (batches.foldl upsert_raw tbl) := by
  induction batches generalizing tbl with
  | nil => exact h
  | cons b bs ih => exact ih (uniqueKeys_upsert_raw b h)

/-- C1. Upserting a batch twice equals upserting it once; any number of
upsert batches keeps the `(timestamp, measurementLabel)` key unique; and
every key of the batch is present afterwards (exactly one row per key). -/
theorem upsert_raw_idempotent (tbl rows : List RawRow) (h : uniqueKeys tbl) :
    upsert_raw (upsert_raw tbl rows) rows = upsert_raw tbl rows ∧
    (∀ batches : List (List RawRow),
      uniqueKeys (batches.foldl upsert_raw tbl)) ∧
    (∀ r ∈ rows, keyOf r ∈ (upsert_raw tbl rows).map keyOf) := by
  have huniq : uniqueKeys (upsert_raw tbl rows) := uniqueKeys_upsert_raw rows h
  have hkeys : ∀ r ∈ rows, keyOf r ∈ (upsert_raw tbl rows).map keyOf := by
    intro r hr
    exact (mem_keys_upsert_raw tbl rows (keyOf r)).mpr
      (Or.inr (List.mem_map_of_mem keyOf hr))
  refine ⟨?_, fun batches => uniqueKeys_foldl_upsert batches h, hkeys⟩
  rw [upsert_raw_eq_map (upsert_raw tbl rows) rows hkeys]
  have hid : ∀ x ∈ upsert_raw tbl rows, applyAll rows x = x := by
    intro x hx
    rw [applyAll_eq]
    cases hl : lastVal rows (keyOf x) with
    | none => rfl
    | some v =>
      have h1 : lookup (upsert_raw tbl rows) (keyOf x) = some x.state :=
        lookup_self huniq hx
      have h2 : lookup (upsert_raw tbl rows) (keyOf x) = some v := by
        rw [lookup_upsert_raw, hl, some_or_eq]
      have : x.state = v := by
        rw [h1] at h2
        exact Option.some.inj h2
      rw [← this]
      rfl
  calc (upsert_raw tbl rows).map (applyAll rows)
      = (upsert_raw tbl rows).map id := List.map_congr_left fun x hx => hid x hx
    _ = upsert_raw tbl rows := List.map_id _

/-- Witness for C1 at a concrete table and batch. -/
theorem upsert_raw_idempotent_witness :
    uniqueKeys [⟨"2025-06-01T09:00", "s1", 20⟩] ∧
    (upsert_raw
        (upsert_raw [⟨"2025-06-01T09:00", "s1", 20⟩]
          [⟨"2025-06-01T09:00", "s1", 25⟩, ⟨"2025-06-01T10:00", "s1", 26⟩])
        [⟨"2025-06-01T09:00", "s1", 25⟩, ⟨"2025-06-01T10:00", "s1", 26⟩] =
      upsert_raw [⟨"2025-06-01T09:00", "s1", 20⟩]
        [⟨"2025-06-01T09:00", "s1", 25⟩, ⟨"2025-06-01T10:00", "s1", 26⟩]) := by
  have h : uniqueKeys [⟨"2025-06-01T09:00", "s1", 20⟩] := by
    unfold uniqueKeys
    decide
  exact ⟨h, (upsert_raw_idempotent [⟨"2025-06-01T09:00", "s1", 20⟩]
    [⟨"2025-06-01T09:00", "s1", 25⟩, ⟨"2025-06-01T10:00", "s1", 26⟩] h).1⟩

/-- Fuel-bounded unfolding of the chunk loop `while t0 < end_dt` in `main`
(`src/update_sqlite.py`, lines 182-203): each iteration emits the window
`[t0, min(t0 + chunk, end))` and continues from that window's end. -/
def chunkWindowsAux : Nat → Int → Int → Int → List (Int × Int)
  | 0, _, _, _ => []
  | fuel + 1, t0, e, s =>
    if t0 < e then
      (t0, min (t0 + s) e) :: chunkWindowsAux fuel (min (t0 + s) e) e s
    else []

/-- Chunk sub-windows generated for the fetch window `[t0, e)` with chunk
size `s` minutes. `(e - t0).toNat` iterations always suffice when `0 < s`,
since each iteration advances `t0` by at least one minute. -/
def chunkWindows (t0 e s : Int) : List (Int × Int) :=
  chunkWindowsAux (e - t0).toNat t0 e s

/-- Chunk size chosen in `main`: 60 minutes for `occcount`, else 180. -/
def chunkOf (t : String) : Int := if t = "occcount" then 60 else 180

theorem chunkWindowsAux_succ (fuel : Nat) (t0 e s : Int) :
    chunkWindowsAux (fuel + 1) t0 e s =
      if t0 < e then
        (t0, min (t0 + s) e) :: chunkWindowsAux fuel (min (t0 + s) e) e s
      else [] := rfl

theorem chunkWindowsAux_shape (s e : Int) (hs : 0 < s) :
    ∀ (fuel : Nat) (t0 : Int), ∀ w ∈ chunkWindowsAux fuel t0 e s,
      w.2 = min (w.1 + s) e ∧ w.1 < w.2 ∧ w.2 - w.1 ≤ s := by
  intro fuel
  induction fuel with
  | zero => intro t0 w hw; cases hw
  | succ f ih =>
    intro t0 w hw
    rw [chunkWindowsAux_succ] at hw
    by_cases h : t0 < e
    · rw [if_pos h] at hw
      rcases List.mem_cons.mp hw with rfl | hw'
      · refine ⟨rfl, ?_, ?_⟩ <;> simp only [min_def] <;> split <;> omega
      · exact ih _ w hw'
    · rw [if_neg h] at hw
      cases hw

theorem chunkWindowsAux_head (s e : Int) :
    ∀ (fuel : Nat) (t0 : Int), ∀ w ∈ (chunkWindowsAux fuel t0 e s).head?,
      w.1 = t0 := by
  intro fuel t0 w hw
  cases fuel with
  | zero => cases hw
  | succ f =>
    rw [chunkWindowsAux_succ] at hw
    by_cases h : t0 < e
    · rw [if_pos h] at hw
      simp only [List.head?_cons, Option.mem_def, Option.some.injEq] at hw
      rw [← hw]
    · rw [if_neg h] at hw
      cases hw

theorem chunkWindowsAux_chain (s e : Int) :
    ∀ (fuel : Nat) (t0 : Int),
      List.Chain' (fun a b : Int × Int => a.2 = b.1)
        (chunkWindowsAux fuel t0 e s) := by
  intro fuel
  induction fuel with
  | zero => intro t0; exact List.chain'_nil
  | succ f ih =>
    intro t0
    rw [chunkWindowsAux_succ]
    by_cases h : t0 < e
    · rw [if_pos h]
      refine List.chain'_cons'.mpr ⟨?_, ih _⟩
      intro b hb
      exact (chunkWindowsAux_head s e f (min (t0 + s) e) b hb).symm
    · rw [if_neg h]
      exact List.chain'_nil

theorem chunkWindowsAux_cover (s e : Int) (hs : 0 < s) :
    ∀ (fuel : Nat) (t0 : Int), (e - t0).toNat ≤ fuel →
      ∀ x : Int,
        (∃ w ∈ chunkWindowsAux fuel t0 e s, w.1 ≤ x ∧ x < w.2) ↔
          (t0 ≤ x ∧ x < e) := by
  intro fuel
  induction fuel with
  | zero =>
    intro t0 hf x
    have he : e ≤ t0 := by omega
    constructor
    · rintro ⟨w, hw, _⟩; cases hw
    · rintro ⟨h1, h2⟩; omega
  | succ f ih =>
    intro t0 hf x
    rw [chunkWindowsAux_succ]
    by_cases h : t0 < e
    · rw [if_pos h]
      have hm1 : t0 < min (t0 + s) e := by
        simp only [min_def]; split <;> omega
      have hm2 : min (t0 + s) e ≤ e := min_le_right _ _
      have hf' : (e - min (t0 + s) e).toNat ≤ f := by omega
      constructor
      · rintro ⟨w, hw, hx1, hx2⟩
        rcases List.mem_cons.mp hw with rfl | hw'
        · exact ⟨hx1, lt_of_lt_of_le hx2 hm2⟩
        · have := (ih _ hf' x).mp ⟨w, hw', hx1, hx2⟩
          exact ⟨by omega, this.2⟩
      · rintro ⟨hx1, hx2⟩
        by_cases hxm : x < min (t0 + s) e
        · exact ⟨(t0, min (t0 + s) e), List.mem_cons_self _ _, hx1, hxm⟩
        · obtain ⟨w, hw, h1, h2⟩ := (ih _ hf' x).mpr ⟨by omega, hx2⟩
          exact ⟨w, List.mem_cons_of_mem _ hw, h1, h2⟩
    · rw [if_neg h]
      constructor
      · rintro ⟨w, hw, _⟩; cases hw
      · rintro ⟨h1, h2⟩; omega

/-- C2. Chunking exactly covers the fetch window: every generated sub-window
is `[t0, min (t0 + chunk) end)`, nonempty and at most `chunk` minutes long;
consecutive sub-windows are contiguous; the first starts at `start`; their
union is exactly `[start, end)`; and `start ≥ end` yields no sub-window. -/
theorem chunkWindows_spec (t0 e s : Int) (hs : 0 < s) :
    (∀ w ∈ chunkWindows t0 e s,
        w.2 = min (w.1 + s) e ∧ w.1 < w.2 ∧ w.2 - w.1 ≤ s) ∧
    List.Chain' (fun a b : Int × Int => a.2 = b.1) (chunkWindows t0 e s) ∧
    (t0 < e → (chunkWindows t0 e s).head? = some (t0, min (t0 + s) e)) ∧
    (∀ x : Int,
      (∃ w ∈ chunkWindows t0 e s, w.1 ≤ x ∧ x < w.2) ↔ (t0 ≤ x ∧ x < e)) ∧
    (e ≤ t0 → chunkWindows t0 e s = []) := by
  refine ⟨fun w hw => chunkWindowsAux_shape s e hs _ t0 w hw,
    chunkWindowsAux_chain s e _ t0, ?_,
    fun x => chunkWindowsAux_cover s e hs _ t0 (le_refl _) x, ?_⟩
  · intro h
    obtain ⟨f, hf⟩ : ∃ f, (e - t0).toNat = f + 1 := ⟨(e - t0).toNat - 1, by omega⟩
    rw [chunkWindows, hf, chunkWindowsAux_succ, if_pos h, List.head?_cons]
  · intro h
    have h0 : (e - t0).toNat = 0 := by omega
    rw [chunkWindows, h0]
    rfl

/-- Witness for C2 with `start = 0`, `end = 400`, `chunk = 180`. -/
theorem chunkWindows_spec_witness :
    (0 : Int) < 180 ∧
    ((∀ w ∈ chunkWindows 0 400 180,
        w.2 = min (w.1 + 180) 400 ∧ w.1 < w.2 ∧ w.2 - w.1 ≤ 180) ∧
    List.Chain' (fun a b : Int × Int => a.2 = b.1) (chunkWindows 0 400 180) ∧
    ((0 : Int) < 400 →
      (chunkWindows 0 400 180).head? = some (0, min (0 + 180) 400)) ∧
    (∀ x : Int,
      (∃ w ∈ chunkWindows 0 400 180, w.1 ≤ x ∧ x < w.2) ↔ (0 ≤ x ∧ x < 400)) ∧
    ((400 : Int) ≤ 0 → chunkWindows 0 400 180 = [])) :=
  ⟨by decide, chunkWindows_spec 0 400 180 (by decide)⟩

/-- Whitespace-trimming `.strip()` of Python, over the character list (the
built-in `String.trim` is opaque to kernel evaluation). -/
def pyStrip (s : String) : String :=
  ⟨((s.data.dropWhile Char.isWhitespace).reverse.dropWhile
      Char.isWhitespace).reverse⟩

/-- Executable lexicographic comparison of strings by code point; on the
fixed-width `YYYY-MM-DDTHH:MM` timestamp format this is exactly the
chronological order. -/
def charListLtB : List Char → List Char → Bool
  | [], [] => false
  | [], _ :: _ => true
  | _ :: _, [] => false
  | c :: cs, d :: ds =>
    if c.toNat < d.toNat then true
    else if d.toNat < c.toNat then false
    else charListLtB cs ds

/-- Strict timestamp-string order (see `charListLtB`). -/
def strLt (a b : String) : Prop := charListLtB a.data b.data = true

instance (a b : String) : Decidable (strLt a b) :=
  inferInstanceAs (Decidable (charListLtB a.data b.data = true))

/-- `float(it["state"])` outcome: a numeric value, or a conversion error. -/
inductive FloatVal
  | num (v : Int)
  | malformed
deriving DecidableEq, Repr

/-- A fetched record: an untyped map whose fields may be missing.
`str(...)` never fails, so present fields are strings after `str`. -/
structure Item where
  timestamp : Option String
  measurementLabel : Option String
  state : Option FloatVal
deriving DecidableEq, Repr

/-- Body of `for it in items` (`src/update_sqlite.py`, lines 189-195): build
the `(timestamp, measurementLabel, state)` tuple, skipping the record when a
key is missing or `float()` fails. -/
def parseItem (it : Item) : Option RawRow :=
  match it.timestamp, it.measurementLabel, it.state with
  | some ts, some lb, some (.num v) => some ⟨pyStrip ts, pyStrip lb, v⟩
  | _, _, _ => none

/-- The `rows` list built from a chunk response. -/
def rowsOf (items : List Item) : List RawRow := items.filterMap parseItem

/-- First `Meta.last_ts` row for a `source_key` (minute-granular `Int`). -/
def metaLookup : List (String × Int) → String → Option Int
  | [], _ => none
  | (k, v) :: rest, key => if k = key then some v else metaLookup rest key

/-- `meta_get` (lines 127-129), at the call shape used in `main`, where a
default timestamp is always supplied. -/
def meta_get (m : List (String × Int)) (key : String) (default_ts : Int) : Int :=
  (metaLookup m key).getD default_ts

/-- `meta_set` (lines 131-137): `INSERT ... ON CONFLICT(source_key) DO
UPDATE SET last_ts=excluded.last_ts`. -/
def meta_set (m : List (String × Int)) (key : String) (ts : Int) :
    List (String × Int) :=
  if key ∈ m.map Prod.fst then
    m.map fun p => if p.1 = key then (p.1, ts) else p
  else m ++ [(key, ts)]

/-- The SQLite database state relevant to the incremental sync. -/
structure DbState where
  raw : List RawRow
  meta : List (String × Int)
deriving DecidableEq, Repr

/-- Fetch-window start for one type (lines 173-174): the stored watermark,
or `now - backfill_hours` when absent, minus the 5-minute overlap. -/
def startOfWindow (meta : List (String × Int)) (t : String)
    (now backfill_hours : Int) : Int :=
  meta_get meta ("base:" ++ t) (now - 60 * backfill_hours) - 5

/-- Outcome of `fetch_range` for one chunk: the parsed JSON payload (`null`
or a record array), or the exception message of a failed fetch. -/
inductive FetchOut
  | ok (data : Option (List Item))
  | err (msg : String)
deriving DecidableEq, Repr

/-- Lines 186-198: `n = len(items or [])`, build `rows`, upsert when
nonempty, and add `len(rows)` to the per-type total. -/
def processChunk (st : DbState) (data : Option (List Item)) : DbState × Nat :=
  let items := data.getD []
  if items.length = 0 then (st, 0)
  else
    let rows := rowsOf items
    if rows.length = 0 then (st, 0)
    else ({ st with raw := upsert_raw st.raw rows }, rows.length)

/-- One iteration of the chunk loop (lines 182-203): a failed fetch is
caught, logged and skipped; a successful one is processed. -/
def chunkStep (fetch : String → Int → Int → FetchOut) (t : String)
    (acc : DbState × Nat) (w : Int × Int) : DbState × Nat :=
  match fetch t w.1 w.2 with
  | .err _ => acc
  | .ok data =>
    let p := processChunk acc.1 data
    (p.1, acc.2 + p.2)

/-- The body of `for t in BASE_TYPES` (lines 171-207): compute the window,
run every chunk, then `meta_set(conn, key, now)` unconditionally. -/
def processType (fetch : String → Int → Int → FetchOut) (st : DbState)
    (t : String) (now backfill_hours : Int) : DbState × Nat :=
  let result := (chunkWindows (startOfWindow st.meta t now backfill_hours)
      now (chunkOf t)).foldl (chunkStep fetch t) (st, 0)
  ({ result.1 with meta := meta_set result.1.meta ("base:" ++ t) now },
    result.2)

def BASE_TYPES : List String :=
  ["intemp", "inhumid", "inco2", "inpm25", "inpm10", "intvoc",
   "inlight", "inmotion", "inpressure", "current", "occcount", "battery"]

/-- Per-type step of the run, accumulating `total_all`. -/
def typeStep (fetch : String → Int → Int → FetchOut) (now backfill_hours : Int)
    (acc : DbState × Nat) (t : String) : DbState × Nat :=
  let p := processType fetch acc.1 t now backfill_hours
  (p.1, acc.2 + p.2)

/-- The `Raw_State` incremental part of `main` (lines 167-207). -/
def runMain (fetch : String → Int → Int → FetchOut) (st : DbState)
    (now backfill_hours : Int) : DbState × Nat :=
  BASE_TYPES.foldl (typeStep fetch now backfill_hours) (st, 0)

theorem metaLookup_map_set (m : List (String × Int)) (key : String) (ts : Int)
    (k' : String) :
    metaLookup (m.map fun p => if p.1 = key then (p.1, ts) else p) k' =
      if k' = key then (metaLookup m k').map fun _ => ts
      else metaLookup m k' := by
  induction m with
  | nil => simp [metaLookup]
  | cons p rest ih =>
    obtain ⟨pk, pv⟩ := p
    by_cases hp : pk = key
    · rw [List.map_cons, if_pos hp]
      simp only [metaLookup]
      by_cases hk : pk = k'
      · have hkey : k' = key := by rw [← hk, hp]
        rw [if_pos hk, if_pos hkey, if_pos hk]
        rfl
      · rw [if_neg hk, ih]
        by_cases h2 : k' = key
        · rw [if_pos h2, if_pos h2, if_neg hk]
        · rw [if_neg h2, if_neg h2, if_neg hk]
    · rw [List.map_cons, if_neg hp]
      simp only [metaLookup]
      by_cases hk : pk = k'
      · have h2 : ¬ k' = key := by
          intro h
          exact hp (by rw [hk, h])
        rw [if_pos hk, if_neg h2, if_pos hk]
      · rw [if_neg hk, ih]
        by_cases h2 : k' = key
        · rw [if_pos h2, if_pos h2, if_neg hk]
        · rw [if_neg h2, if_neg h2, if_neg hk]

theorem metaLookup_append (a b : List (String × Int)) (k : String) :
    metaLookup (a ++ b) k = (metaLookup a k).or (metaLookup b k) := by
  induction a with
  | nil => simp [metaLookup]
  | cons p rest ih =>
    obtain ⟨pk, pv⟩ := p
    simp only [List.cons_append, metaLookup]
    split <;> simp [ih]

theorem metaLookup_eq_none_iff (m : List (String × Int)) (k : String) :
    metaLookup m k = none ↔ k ∉ m.map Prod.fst := by
  induction m with
  | nil => simp [metaLookup]
  | cons p rest ih =>
    obtain ⟨pk, pv⟩ := p
    simp only [metaLookup, List.map_cons, List.mem_cons]
    split
    next h => simp [h]
    next h =>
      simp only [ih]
      constructor
      · rintro hk (hx | hx)
        · exact h hx.symm
        · exact hk hx
      · intro hk hx
        exact hk (Or.inr hx)

theorem metaLookup_meta_set (m : List (String × Int)) (key : String) (ts : Int)
    (k' : String) :
    metaLookup (meta_set m key ts) k' =
      if k' = key then some ts else metaLookup m k' := by
  unfold meta_set
  split
  next hmem =>
    rw [metaLookup_map_set]
    by_cases hk : k' = key
    · rw [if_pos hk, if_pos hk]
      obtain ⟨v, hv⟩ : ∃ v, metaLookup m k' = some v := by
        rcases hmv : metaLookup m k' with _ | v
        · exact absurd hmem (hk ▸ (metaLookup_eq_none_iff m k').mp hmv)
        · exact ⟨v, rfl⟩
      rw [hv]
      rfl
    · rw [if_neg hk, if_neg hk]
  next hmem =>
    rw [metaLookup_append]
    by_cases hk : k' = key
    · have h0 : metaLookup m k' = none :=
        (metaLookup_eq_none_iff m k').mpr fun hin => hmem (hk ▸ hin)
      rw [if_pos hk, h0, Option.none_or]
      simp [metaLookup, hk]
    · have h1 : ¬ key = k' := fun h => hk h.symm
      rw [if_neg hk]
      simp [metaLookup, h1]

theorem processChunk_meta (st : DbState) (data : Option (List Item)) :
    (processChunk st data).1.meta = st.meta := by
  simp only [processChunk]
  split
  · rfl
  · split <;> rfl

theorem chunkStep_meta (fetch : String → Int → Int → FetchOut) (t : String)
    (acc : DbState × Nat) (w : Int × Int) :
    (chunkStep fetch t acc w).1.meta = acc.1.meta := by
  unfold chunkStep
  split
  · rfl
  · exact processChunk_meta _ _

theorem foldl_chunkStep_meta (fetch : String → Int → Int → FetchOut)
    (t : String) (ws : List (Int × Int)) (acc : DbState × Nat) :
    ((ws.foldl (chunkStep fetch t) acc).1).meta = acc.1.meta := by
  induction ws generalizing acc with
  | nil => rfl
  | cons w ws ih => rw [List.foldl_cons, ih, chunkStep_meta]

theorem processType_metaLookup (fetch : String → Int → Int → FetchOut)
    (st : DbState) (t : String) (now backfill_hours : Int) (k' : String) :
    metaLookup (processType fetch st t now backfill_hours).1.meta k' =
      if k' = "base:" ++ t then some now else metaLookup st.meta k' := by
  unfold processType
  simp only
  rw [metaLookup_meta_set, foldl_chunkStep_meta]

theorem foldl_typeStep_preserve (fetch : String → Int → Int → FetchOut)
    (now backfill_hours : Int) (ts : List String) (acc : DbState × Nat)
    (k : String) (h : metaLookup acc.1.meta k = some now) :
    metaLookup ((ts.foldl (typeStep fetch now backfill_hours) acc).1).meta k =
      some now := by
  induction ts generalizing acc with
  | nil => exact h
  | cons t' rest ih =>
    rw [List.foldl_cons]
    refine ih _ ?_
    show metaLookup (processType fetch acc.1 t' now backfill_hours).1.meta k =
      some now
    rw [processType_metaLookup]
    split <;> simp [h]

theorem foldl_typeStep_mem (fetch : String → Int → Int → FetchOut)
    (now backfill_hours : Int) (ts : List String) (acc : DbState × Nat)
    (t : String) (ht : t ∈ ts) :
    metaLookup ((ts.foldl (typeStep fetch now backfill_hours) acc).1).meta
      ("base:" ++ t) = some now := by
  induction ts generalizing acc with
  | nil => cases ht
  | cons t' rest ih =>
    rw [List.foldl_cons]
    rcases List.mem_cons.mp ht with rfl | ht'
    · refine foldl_typeStep_preserve fetch now backfill_hours rest _ _ ?_
      show metaLookup (processType fetch acc.1 t now backfill_hours).1.meta
        ("base:" ++ t) = some now
      rw [processType_metaLookup, if_pos rfl]
    · exact ih _ ht'

/-- A fetch oracle whose every chunk request fails (e.g. connection error
after all URL candidates are exhausted). -/
def fetchFail : String → Int → Int → FetchOut := fun _ _ _ => .err "ConnectionError"

/-- C3 counterexample. With a stored watermark of 900 and every chunk
failing, the code still sets `Meta.last_ts` for `base:intemp` to `now`
(1000): nothing was ingested (`raw` stays empty), the single chunk
`[895, 1000)` failed, yet the watermark advanced past the whole gap —
refuting the claim that advance is gated on gap-free success. -/
theorem watermark_advance_not_gated :
    metaLookup (processType fetchFail ⟨[], [("base:intemp", 900)]⟩ "intemp"
      1000 72).1.meta ("base:" ++ "intemp") = some 1000 ∧
    (processType fetchFail ⟨[], [("base:intemp", 900)]⟩ "intemp"
      1000 72).1.raw = [] ∧
    chunkWindows (startOfWindow [("base:intemp", 900)] "intemp" 1000 72) 1000
      (chunkOf "intemp") = [(895, 1000)] ∧
    (895 : Int) < 1000 := by decide

/-- C3 (amended). Watermark advance is unconditional: after a run, every
type's `Meta.last_ts` equals the run's `now`, whether or not any chunk
failed; failed chunks are logged and skipped without blocking advance. -/
theorem watermark_advance_unconditional
    (fetch : String → Int → Int → FetchOut) (st : DbState)
    (now backfill_hours : Int) (t : String) (ht : t ∈ BASE_TYPES) :
    metaLookup (runMain fetch st now backfill_hours).1.meta ("base:" ++ t) =
      some now :=
  foldl_typeStep_mem fetch now backfill_hours BASE_TYPES (st, 0) t ht

/-- Witness for the amended C3 at a concrete all-failing run. -/
theorem watermark_advance_unconditional_witness :
    "intemp" ∈ BASE_TYPES ∧
    metaLookup (runMain fetchFail ⟨[], []⟩ 0 72).1.meta
      ("base:" ++ "intemp") = some 0 :=
  ⟨by decide,
    watermark_advance_unconditional fetchFail ⟨[], []⟩ 0 72 "intemp" (by decide)⟩

/-- C4. Watermark monotonicity: if a type's stored watermark before a run is
`w0` and the run's `now` is not earlier than it (wall clocks move forward),
the watermark stored after the run is some `w1 ≥ w0`. -/
theorem watermark_monotone (fetch : String → Int → Int → FetchOut)
    (st : DbState) (now backfill_hours w0 : Int) (t : String)
    (ht : t ∈ BASE_TYPES)
    (hw : metaLookup st.meta ("base:" ++ t) = some w0)
    (hclock : w0 ≤ now) :
    ∃ w1, metaLookup (runMain fetch st now backfill_hours).1.meta
        ("base:" ++ t) = some w1 ∧ w0 ≤ w1 :=
  ⟨now, foldl_typeStep_mem fetch now backfill_hours BASE_TYPES (st, 0) t ht,
    hclock⟩

/-- Witness for C4 at a concrete run. -/
theorem watermark_monotone_witness :
    ("intemp" ∈ BASE_TYPES ∧
      metaLookup (DbState.mk [] [("base:intemp", 900)]).meta
        ("base:" ++ "intemp") = some 900 ∧ (900 : Int) ≤ 1000) ∧
    ∃ w1, metaLookup (runMain fetchFail ⟨[], [("base:intemp", 900)]⟩ 1000
        72).1.meta ("base:" ++ "intemp") = some w1 ∧ (900 : Int) ≤ w1 :=
  ⟨⟨by decide, by decide, by decide⟩,
    watermark_monotone fetchFail ⟨[], [("base:intemp", 900)]⟩ 1000 72 900
      "intemp" (by decide) (by decide) (by decide)⟩

/-- C6 counterexample. With no stored watermark, `backfill_hours = 72` and
`now = 100000` minutes, the computed window start is `95675`, which is
strictly earlier than `now - backfill = 95680`: the 5-minute overlap margin
is subtracted even on first backfill, refuting "no earlier than
`now - backfillWindow`". -/
theorem backfill_start_before_bound :
    startOfWindow [] "intemp" 100000 72 = 95675 ∧
    (95675 : Int) < 100000 - 60 * 72 := by decide

/-- C6 (amended). With no stored watermark, the computed start is exactly
`now - 60 * backfill_hours - 5` minutes: bounded below by the backfill
window extended by the fixed 5-minute overlap margin, never by more. -/
theorem backfill_start_eq (meta : List (String × Int)) (t : String)
    (now backfill_hours : Int)
    (h : metaLookup meta ("base:" ++ t) = none) :
    startOfWindow meta t now backfill_hours = now - 60 * backfill_hours - 5 := by
  unfold startOfWindow meta_get
  rw [h]
  rfl

/-- Witness for the amended C6. -/
theorem backfill_start_eq_witness :
    metaLookup [] ("base:" ++ "intemp") = none ∧
    startOfWindow [] "intemp" 100000 72 = 100000 - 60 * 72 - 5 :=
  ⟨by decide, backfill_start_eq [] "intemp" 100000 72 (by decide)⟩

theorem upsertRow_length (tbl : List RawRow) (r : RawRow) :
    (upsertRow tbl r).length =
      if keyOf r ∈ tbl.map keyOf then tbl.length else tbl.length + 1 := by
  unfold upsertRow
  split
  next hmem => simp
  next hmem => simp

/-- One step of the batch, additionally classifying the row as an in-place
update (key already present) or a fresh insert. -/
def writeStep (p : List RawRow × Nat × Nat) (r : RawRow) :
    List RawRow × Nat × Nat :=
  if keyOf r ∈ p.1.map keyOf then (upsertRow p.1 r, p.2.1, p.2.2 + 1)
  else (upsertRow p.1 r, p.2.1 + 1, p.2.2)

/-- `(inserted, updated)` counts of a batch applied to a table. -/
def upsertWritten (tbl rows : List RawRow) : Nat × Nat :=
  (rows.foldl writeStep (tbl, 0, 0)).2

theorem writeFold_inv (rows : List RawRow) :
    ∀ (tbl : List RawRow) (i u : Nat),
      (rows.foldl writeStep (tbl, i, u)).1 = upsert_raw tbl rows ∧
      (rows.foldl writeStep (tbl, i, u)).2.1 +
        (rows.foldl writeStep (tbl, i, u)).2.2 = i + u + rows.length ∧
      (rows.foldl writeStep (tbl, i, u)).1.length + i =
        tbl.length + (rows.foldl writeStep (tbl, i, u)).2.1 := by
  induction rows with
  | nil =>
    intro tbl i u
    exact ⟨rfl, by simp, by simp⟩
  | cons r rs ih =>
    intro tbl i u
    rw [List.foldl_cons]
    by_cases hmem : keyOf r ∈ tbl.map keyOf
    · have hstep : writeStep (tbl, i, u) r = (upsertRow tbl r, i, u + 1) := by
        unfold writeStep
        rw [if_pos hmem]
      rw [hstep]
      obtain ⟨e1, e2, e3⟩ := ih (upsertRow tbl r) i (u + 1)
      refine ⟨e1, by rw [e2]; simp [List.length_cons]; omega, ?_⟩
      rw [e3, upsertRow_length, if_pos hmem]
    · have hstep : writeStep (tbl, i, u) r = (upsertRow tbl r, i + 1, u) := by
        unfold writeStep
        rw [if_neg hmem]
      rw [hstep]
      obtain ⟨e1, e2, e3⟩ := ih (upsertRow tbl r) (i + 1) u
      refine ⟨e1, by rw [e2]; simp [List.length_cons]; omega, ?_⟩
      have hlen : (upsertRow tbl r).length = tbl.length + 1 := by
        rw [upsertRow_length, if_neg hmem]
      omega

/-- C9. The per-batch count added to the totals (`len(rows)`) equals the
number of rows actually written: every batch row performs exactly one
insert or one in-place update (`inserted + updated = len(rows)`), and the
inserts are exactly the table's growth. -/
theorem upsert_count_reflects_writes (tbl rows : List RawRow) :
    (upsertWritten tbl rows).1 + (upsertWritten tbl rows).2 = rows.length ∧
    (upsert_raw tbl rows).length =
      tbl.length + (upsertWritten tbl rows).1 := by
  obtain ⟨e1, e2, e3⟩ := writeFold_inv rows tbl 0 0
  unfold upsertWritten
  constructor
  · rw [e2]
    omega
  · rw [← e1]
    omega

/-- C5 counterexample. With stored watermark `W = 2025-06-01T12:00` and a
chunk response holding a record at `W - 1` minute and one at `W + 1`, the
code retains BOTH (no watermark comparison exists in the record loop), and
against a table where neither key is present it stores TWO new rows, not
one — refuting both halves of the claim. -/
theorem no_watermark_filter :
    rowsOf [⟨some "2025-06-01T11:59", some "s1", some (.num 25)⟩,
            ⟨some "2025-06-01T12:01", some "s1", some (.num 26)⟩] =
      [⟨"2025-06-01T11:59", "s1", 25⟩, ⟨"2025-06-01T12:01", "s1", 26⟩] ∧
    strLt "2025-06-01T11:59" "2025-06-01T12:00" ∧
    (upsert_raw [⟨"2025-06-01T09:00", "s1", 20⟩]
        (rowsOf [⟨some "2025-06-01T11:59", some "s1", some (.num 25)⟩,
                 ⟨some "2025-06-01T12:01", some "s1", some (.num 26)⟩])).length
      = 3 := by decide

/-- C5 (amended). No watermark filter is applied to fetched records: every
parseable record is upserted regardless of the watermark. Overlap
duplicates are absorbed only by the primary-key upsert: when the
at-or-before-watermark record's key is already stored, it is refreshed in
place, and only the unseen newer record adds a row. -/
theorem overlap_absorbed_by_upsert (tbl : List RawRow) (r1 r2 : RawRow)
    (h1 : keyOf r1 ∈ tbl.map keyOf) (h2 : keyOf r2 ∉ tbl.map keyOf) :
    (upsert_raw tbl [r1, r2]).length = tbl.length + 1 ∧
    lookup (upsert_raw tbl [r1, r2]) (keyOf r1) = some r1.state ∧
    lookup (upsert_raw tbl [r1, r2]) (keyOf r2) = some r2.state := by
  have hne : keyOf r1 ≠ keyOf r2 := fun h => h2 (h ▸ h1)
  have hshow : upsert_raw tbl [r1, r2] = upsertRow (upsertRow tbl r1) r2 := rfl
  have hmem2 : keyOf r2 ∉ (upsertRow tbl r1).map keyOf := by
    rw [mem_keys_upsertRow]
    rintro (h | h)
    · exact h2 h
    · exact hne h.symm
  refine ⟨?_, ?_, ?_⟩
  · rw [hshow, upsertRow_length, if_neg hmem2, upsertRow_length, if_pos h1]
  · rw [hshow, lookup_upsertRow, if_neg hne, lookup_upsertRow, if_pos rfl]
  · rw [hshow, lookup_upsertRow, if_pos rfl]

/-- Witness for the amended C5: the `W - 1` record was already stored, so
re-upserting it plus the `W + 1` record adds exactly one row. -/
theorem overlap_absorbed_by_upsert_witness :
    (keyOf ⟨"2025-06-01T11:59", "s1", 25⟩ ∈
        [RawRow.mk "2025-06-01T11:59" "s1" 25].map keyOf ∧
      keyOf ⟨"2025-06-01T12:01", "s1", 26⟩ ∉
        [RawRow.mk "2025-06-01T11:59" "s1" 25].map keyOf) ∧
    ((upsert_raw [⟨"2025-06-01T11:59", "s1", 25⟩]
        [⟨"2025-06-01T11:59", "s1", 25⟩, ⟨"2025-06-01T12:01", "s1", 26⟩]).length
      = 1 + 1 ∧
    lookup (upsert_raw [⟨"2025-06-01T11:59", "s1", 25⟩]
        [⟨"2025-06-01T11:59", "s1", 25⟩, ⟨"2025-06-01T12:01", "s1", 26⟩])
      (keyOf ⟨"2025-06-01T11:59", "s1", 25⟩) = some 25 ∧
    lookup (upsert_raw [⟨"2025-06-01T11:59", "s1", 25⟩]
        [⟨"2025-06-01T11:59", "s1", 25⟩, ⟨"2025-06-01T12:01", "s1", 26⟩])
      (keyOf ⟨"2025-06-01T12:01", "s1", 26⟩) = some 26) :=
  ⟨⟨by decide, by decide⟩,
    overlap_absorbed_by_upsert [⟨"2025-06-01T11:59", "s1", 25⟩]
      ⟨"2025-06-01T11:59", "s1", 25⟩ ⟨"2025-06-01T12:01", "s1", 26⟩
      (by decide) (by decide)⟩

/-- `API_BASE` default (`src/update_sqlite.py`, line 6). -/
def API_BASE : String := "https://archcu-digitaltwin.mamgistics.com"

/-- The two base-path candidates tried in order (line 19). -/
def API_PREFIXES : List String := ["/arc01/api", ""]

/-- A response body as the script can observe it. -/
inductive Body
  | jsonDoc (v : Option (List Item))
  | ndjson (first second : Item) (rest : List Item)
  | emptyBody
deriving DecidableEq, Repr

/-- `requests.Response.json()` is one `json.loads` over the whole body: a
single JSON document (here: `null` or a record array) parses; two or more
newline-delimited documents, or an empty body, raise `JSONDecodeError`. -/
def responseJson : Body → Option (Option (List Item))
  | .jsonDoc v => some v
  | .ndjson _ _ _ => none
  | .emptyBody => none

/-- One HTTP GET outcome as `get_json` can observe it. -/
inductive HttpOut
  | notFound
  | transportErr (msg : String)
  | okBody (b : Body)
deriving DecidableEq, Repr

/-- One iteration of the `get_json` prefix loop (lines 62-74) at URL `u`:
404 records an error and falls through; `raise_for_status` and `r.json()`
exceptions are caught by the same `except` and also fall through; a parsed
body is returned. -/
def attemptAt (http : String → HttpOut) (u : String) :
    Except String (Option (List Item)) :=
  match http u with
  | .notFound => .error ("404 " ++ u)
  | .transportErr m => .error (m ++ " @ " ++ u)
  | .okBody b =>
    match responseJson b with
    | some d => .ok d
    | none => .error ("JSONDecodeError @ " ++ u)

/-- The prefix loop of `get_json` with its `last_err` threading, also
returning the list of URLs actually requested. -/
def getJsonLoop (http : String → HttpOut) (path0 : String) :
    List String → Option String →
      Except String (Option (List Item) × String) × List String
  | [], lastErr => (.error (lastErr.getD "all prefixes failed"), [])
  | p :: ps, lastErr =>
    match attemptAt http (API_BASE ++ p ++ path0) with
    | .ok d => (.ok (d, API_BASE ++ p ++ path0), [API_BASE ++ p ++ path0])
    | .error e =>
      ((getJsonLoop http path0 ps (some e)).1,
        (API_BASE ++ p ++ path0) :: (getJsonLoop http path0 ps (some e)).2)

/-- `get_json` (lines 60-75): try each prefix once, return the first parsed
response, else raise `RuntimeError(last_err)`. -/
def get_json (http : String → HttpOut) (path0 : String) :
    Except String (Option (List Item) × String) :=
  (getJsonLoop http path0 API_PREFIXES none).1

/-- The URLs actually requested by one `get_json` call, in order. -/
def getJsonTrace (http : String → HttpOut) (path0 : String) : List String :=
  (getJsonLoop http path0 API_PREFIXES none).2

deriving instance DecidableEq for Except

/-- An upstream that refuses every connection. -/
def httpDown : String → HttpOut := fun _ => .transportErr "ConnectionError: refused"

/-- C7 counterexample. With every request failing at the transport level,
`get_json` fails after exactly two requests — one per prefix candidate, no
URL ever requested twice and no third attempt — refuting "retried up to N
attempts (default 3) ... only after N exhausted attempts does the call
fail". -/
theorem no_retry_on_transport_failure :
    get_json httpDown "/range/intemp" =
      .error ("ConnectionError: refused @ " ++
        (API_BASE ++ "" ++ "/range/intemp")) ∧
    getJsonTrace httpDown "/range/intemp" =
      [API_BASE ++ "/arc01/api" ++ "/range/intemp",
       API_BASE ++ "" ++ "/range/intemp"] ∧
    (getJsonTrace httpDown "/range/intemp").Nodup ∧
    (getJsonTrace httpDown "/range/intemp").length = 2 := by decide

theorem url_ne (path0 : String) :
    API_BASE ++ "/arc01/api" ++ path0 ≠ API_BASE ++ path0 := by
  intro h
  have hlen := congrArg String.length h
  simp only [String.length_append] at hlen
  have h10 : "/arc01/api".length = 10 := rfl
  omega

/-- C7 (amended). No retry exists: each prefix candidate's URL is requested
at most once per call (never three attempts), in order; a 404, transport
error or parse error alike falls through to the next prefix; the first
parsed response wins, and if both candidates fail the call errors with the
last failure. -/
theorem prefix_fallback_no_retry (http : String → HttpOut) (path0 : String) :
    (getJsonTrace http path0).Nodup ∧
    (getJsonTrace http path0).length ≤ 2 ∧
    getJsonTrace http path0 =
      (match attemptAt http (API_BASE ++ "/arc01/api" ++ path0) with
       | .ok _ => [API_BASE ++ "/arc01/api" ++ path0]
       | .error _ =>
         [API_BASE ++ "/arc01/api" ++ path0, API_BASE ++ path0]) ∧
    get_json http path0 =
      (match attemptAt http (API_BASE ++ "/arc01/api" ++ path0) with
       | .ok d => .ok (d, API_BASE ++ "/arc01/api" ++ path0)
       | .error _ =>
         match attemptAt http (API_BASE ++ path0) with
         | .ok d => .ok (d, API_BASE ++ path0)
         | .error e2 => .error e2) := by
  have hmid : API_BASE ++ "" ++ path0 = API_BASE ++ path0 := by
    rw [String.append_empty]
  have hloop : getJsonLoop http path0 API_PREFIXES none =
      (match attemptAt http (API_BASE ++ "/arc01/api" ++ path0) with
       | .ok d =>
         (.ok (d, API_BASE ++ "/arc01/api" ++ path0),
           [API_BASE ++ "/arc01/api" ++ path0])
       | .error _ =>
         match attemptAt http (API_BASE ++ path0) with
         | .ok d =>
           (.ok (d, API_BASE ++ path0),
             [API_BASE ++ "/arc01/api" ++ path0, API_BASE ++ path0])
         | .error e2 =>
           (.error e2,
             [API_BASE ++ "/arc01/api" ++ path0, API_BASE ++ path0])) := by
    show getJsonLoop http path0 ["/arc01/api", ""] none = _
    cases h1 : attemptAt http (API_BASE ++ "/arc01/api" ++ path0) with
    | ok d => simp [getJsonLoop, h1]
    | error e1 =>
      cases h2 : attemptAt http (API_BASE ++ path0) with
      | ok d => simp [getJsonLoop, h1, hmid, h2]
      | error e2 => simp [getJsonLoop, h1, hmid, h2]
  unfold getJsonTrace get_json
  rw [hloop]
  cases h1 : attemptAt http (API_BASE ++ "/arc01/api" ++ path0) with
  | ok d => simp
  | error e1 =>
    cases h2 : attemptAt http (API_BASE ++ path0) with
    | ok d => simp [url_ne path0]
    | error e2 => simp [url_ne path0]

/-- An upstream answering every request with two newline-delimited JSON
objects. -/
def httpNdjson : String → HttpOut := fun _ =>
  .okBody (.ndjson ⟨some "2025-06-01T12:00", some "s1", some (.num 1)⟩
    ⟨some "2025-06-01T12:01", some "s1", some (.num 2)⟩ [])

/-- An upstream answering every request with an empty body. -/
def httpEmpty : String → HttpOut := fun _ => .okBody .emptyBody

/-- C8 counterexample. A newline-delimited (NDJSON) body and an empty body
are NOT accepted: `r.json()` raises `JSONDecodeError`, the attempt falls
through both prefixes, and `get_json` raises — instead of normalizing
NDJSON to the records, or an empty body to an empty sequence. -/
theorem ndjson_and_empty_rejected :
    get_json httpNdjson "/range/intemp" =
      .error ("JSONDecodeError @ " ++ (API_BASE ++ "" ++ "/range/intemp")) ∧
    get_json httpEmpty "/range/intemp" =
      .error ("JSONDecodeError @ " ++ (API_BASE ++ "" ++ "/range/intemp")) := by
  decide

/-- An upstream answering with an (empty) JSON array document. -/
def httpArr : String → HttpOut := fun _ => .okBody (.jsonDoc (some []))

/-- C8 (amended). Only a single JSON document body is accepted: a JSON
document (array or `null`) is returned as parsed, and `main`'s
`items or []` maps a `null` payload to "no records, no error"; an NDJSON
or empty body is a `JSONDecodeError`, treated like any other failed
attempt. -/
theorem response_shape_json_only (http : String → HttpOut) (path0 : String)
    (d : Option (List Item))
    (h : http (API_BASE ++ "/arc01/api" ++ path0) = .okBody (.jsonDoc d)) :
    get_json http path0 = .ok (d, API_BASE ++ "/arc01/api" ++ path0) ∧
    (∀ st : DbState, processChunk st none = (st, 0)) ∧
    (∀ a b rest, responseJson (Body.ndjson a b rest) = none) ∧
    responseJson Body.emptyBody = none := by
  have ha : attemptAt http (API_BASE ++ "/arc01/api" ++ path0) = .ok d := by
    unfold attemptAt
    rw [h]
    rfl
  refine ⟨?_, fun st => rfl, fun a b rest => rfl, rfl⟩
  unfold get_json
  show (getJsonLoop http path0 ["/arc01/api", ""] none).1 = _
  simp [getJsonLoop, ha]

/-- Witness for the amended C8. -/
theorem response_shape_json_only_witness :
    httpArr (API_BASE ++ "/arc01/api" ++ "/range/intemp") =
      .okBody (.jsonDoc (some [])) ∧
    (get_json httpArr "/range/intemp" =
        .ok (some [], API_BASE ++ "/arc01/api" ++ "/range/intemp") ∧
      (∀ st : DbState, processChunk st none = (st, 0)) ∧
      (∀ a b rest, responseJson (Body.ndjson a b rest) = none) ∧
      responseJson Body.emptyBody = none) :=
  ⟨rfl, response_shape_json_only httpArr "/range/intemp" (some []) rfl⟩

/-- The `ICT = timezone(timedelta(hours=7))` offset, in minutes. -/
def ICT : Int := 7 * 60

/-- The three formats tried by `parse_dt_guess` (line 52), in order. -/
def DT_FORMATS : List String :=
  ["%Y-%m-%dT%H:%M:%S%z", "%Y-%m-%dT%H:%M%z", "%Y-%m-%dT%H:%M"]

/-- A Python `datetime`: wall-clock minutes plus an optional fixed-offset
`tzinfo` (minutes east of UTC). -/
structure PyDateTime where
  wall : Int
  tz : Option Int
deriving DecidableEq, Repr

/-- The `for fmt in (...)` loop of `parse_dt_guess`: the first format whose
`strptime` does not raise wins (naive results get `ICT` attached); if all
three raise `ValueError`, fall back to `datetime.now(ICT) -
timedelta(hours=36)`. -/
def parseLoop (strptime : String → String → Option PyDateTime) (s : String)
    (now : PyDateTime) : List String → PyDateTime
  | [] => { wall := now.wall - 36 * 60, tz := now.tz }
  | fmt :: fmts =>
    match strptime s fmt with
    | some dt => if dt.tz.isSome then dt else { dt with tz := some ICT }
    | none => parseLoop strptime s now fmts

/-- `parse_dt_guess` (lines 50-58), with `datetime.strptime` as an oracle
returning `none` where Python raises `ValueError`. `(s or "")` maps a
missing string to `""` and `.strip()` is `pyStrip`; every exception is
caught, so the result is always a datetime. -/
def parse_dt_guess (strptime : String → String → Option PyDateTime)
    (now : PyDateTime) (s : Option String) : PyDateTime :=
  parseLoop strptime (pyStrip (s.getD "")) now DT_FORMATS

/-- C10. `parse_dt_guess` is total — it returns a datetime for every input,
missing or empty included, under every `strptime` behaviour — and whenever
the (stripped) input matches none of the three accepted formats it silently
returns `now - 36 hours`, so a corrupted stored watermark widens the next
window to a 36-hour backfill instead of failing the run. -/
theorem parse_dt_guess_fallback
    (strptime : String → String → Option PyDateTime) (now : PyDateTime)
    (s : Option String)
    (h : ∀ fmt ∈ DT_FORMATS, strptime (pyStrip (s.getD "")) fmt = none) :
    parse_dt_guess strptime now s =
      { wall := now.wall - 36 * 60, tz := now.tz } := by
  have h1 := h "%Y-%m-%dT%H:%M:%S%z" (by simp [DT_FORMATS])
  have h2 := h "%Y-%m-%dT%H:%M%z" (by simp [DT_FORMATS])
  have h3 := h "%Y-%m-%dT%H:%M" (by simp [DT_FORMATS])
  unfold parse_dt_guess
  show parseLoop strptime (pyStrip (s.getD "")) now
      ["%Y-%m-%dT%H:%M:%S%z", "%Y-%m-%dT%H:%M%z", "%Y-%m-%dT%H:%M"] = _
  simp [parseLoop, h1, h2, h3]

/-- Witness for C10 with an unparsable input string. -/
theorem parse_dt_guess_fallback_witness :
    (∀ fmt ∈ DT_FORMATS,
      (fun _ _ => (none : Option PyDateTime))
        (pyStrip ((some "not-a-date").getD "")) fmt = none) ∧
    parse_dt_guess (fun _ _ => none) ⟨1000, some 420⟩ (some "not-a-date") =
      { wall := 1000 - 36 * 60, tz := some 420 } :=
  ⟨fun _ _ => rfl,
    parse_dt_guess_fallback (fun _ _ => none) ⟨1000, some 420⟩
      (some "not-a-date") (fun _ _ => rfl)⟩
